import Mathlib

/-!
Verification of the sort engine of `svelte-headless-table`
(`src/lib/plugins/addSortBy.ts`).

The development shallowly embeds the plugin's data model and operations:

* `compareValues` models the `compare` utility from `$lib/utils/compare`
  (not under `src/`, modelled from the spec);
* `BodyCell` / `BodyRow` model the cell and row shapes the sorter relies on;
* `rowComparator` models the pairwise comparator passed to
  `Array.prototype.sort` in `getSortedRows`;
* `insertE` / `sortE` model the ES2019+ stable in-place sort, with comparator
  exceptions surfacing as `Except.error`;
* `getSortedRows` models the recursive hierarchical sorter;
* `toggleId` / `clearId` model the sort-key state machine of
  `createSortKeysStore`;
* `headerToggleUpdate` / `headerClearUpdate` model the `thead.tr.th` hook
  props' effect on the key sequence;
* a small heap model (`Heap`, `getSortedRowsH`) makes the "no mutation of
  inputs" frame property statable: JS arrays become heap-allocated cells and
  the in-place operations of `getSortedRows` become explicit state passing.
-/

namespace AddSortBy

/-- A primitive sort value inside an array projection: `string | number`.
JS numbers are used by this engine only through order comparisons, so they
are modelled as integers. -/
inductive Prim where
  | pstr (s : String)
  | pnum (n : Int)
deriving DecidableEq, Repr

/-- The result type of a `getSortValue` column option:
`string | number | (string | number)[]`. -/
inductive SortVal where
  | str (s : String)
  | num (n : Int)
  | arr (l : List Prim)
deriving DecidableEq, Repr

/-- A JS value held by a data cell (`value` is typed `any` upstream).
`undefined` models the JS value `undefined`, which the comparator can manufacture by reading
`.value` off a non-data cell through an unsound cast; `other` stands for any
value that is neither a string, a number, an array of those, nor undefined. -/
inductive CellValue where
  | str (s : String)
  | num (n : Int)
  | arr (l : List Prim)
  | other
  | undefined
deriving DecidableEq, Repr

def SortVal.toCellValue : SortVal → CellValue
  | .str s => .str s
  | .num n => .num n
  | .arr l => .arr l

/-- `typeof v === 'string' || typeof v === 'number'`. -/
def CellValue.isStringOrNumber : CellValue → Bool
  | .str _ => true
  | .num _ => true
  | _ => false

/-- Sign (`-1`, `0`, `1`) of a comparison in a linear order. -/
def signOfCmp {β : Type} [LinearOrder β] (x y : β) : Int :=
  if x < y then -1 else if y < x then 1 else 0

/-- Sign of the comparison of two primitives. -/
def comparePrim : Prim → Prim → Int
  | .pnum a, .pnum b => signOfCmp a b
  | .pstr a, .pstr b => signOfCmp a b
  | _, _ => 0

/-- Element-wise array comparison: first non-equal element decides, and a
shorter but prefix-equal sequence sorts before the longer one. -/
def comparePrimList : List Prim → List Prim → Int
  | [], [] => 0
  | [], _ :: _ => -1
  | _ :: _, [] => 1
  | a :: as, b :: bs =>
    let c := comparePrim a b
    if c ≠ 0 then c else comparePrimList as bs

/-- Modelled from the spec: the `compare` utility from `$lib/utils/compare` is
not under `src/`. Per the spec it is a deterministic total order comparing
numbers numerically, strings by a locale-independent lexicographic order, and
arrays element-wise (first non-equal element decides, shorter prefix-equal
array first). The spec leaves comparisons of differing kinds (and of values
outside the `string | number | array` contract, such as `undefined`)
unspecified; the model makes those yield `0` (no ordering signal). -/
def compareValues : CellValue → CellValue → Int
  | .num a, .num b => signOfCmp a b
  | .str a, .str b => signOfCmp a b
  | .arr a, .arr b => comparePrimList a b
  | _, _ => 0

/-- A body cell: only `DataBodyCell` carries a comparable `value`; every other
cell kind (display cells, …) is collapsed into `display`. The `id` is the
column id the cell was constructed for; in `BodyRow.cellForId` cells are keyed
by their own `id`, mirroring how `cellForId` is built upstream. -/
inductive BodyCell where
  | data (id : String) (value : CellValue)
  | display (id : String)
deriving DecidableEq, Repr

def BodyCell.id : BodyCell → String
  | .data i _ => i
  | .display i => i

/-- `cell instanceof DataBodyCell`. -/
def BodyCell.isDataCell : BodyCell → Bool
  | .data _ _ => true
  | .display _ => false

/-- Reading `.value` from a cell after the unsound cast
`(cell as DataBodyCell<Item>).value`: a non-data cell has no `value`
property, so JS yields `undefined`. -/
def BodyCell.castValue : BodyCell → CellValue
  | .data _ v => v
  | .display _ => .undefined

/-- A body row: the keyed-cell mapping (`cellForId`, represented by the list
of cells keyed by their own id) and the optional ordered `subRows`. -/
inductive BodyRow where
  | mk (cells : List BodyCell) (subRows : Option (List BodyRow))

def BodyRow.cells : BodyRow → List BodyCell
  | .mk cs _ => cs

def BodyRow.subRows : BodyRow → Option (List BodyRow)
  | .mk _ s => s

/-- `row.cellForId[id]`: an absent column id yields `undefined` (`none`). -/
def BodyRow.cellForId (r : BodyRow) (id : String) : Option BodyCell :=
  r.cells.find? (fun c => c.id == id)

theorem BodyRow.eta (r : BodyRow) : BodyRow.mk r.cells r.subRows = r := by
  cases r
  rfl

/-- `'asc' | 'desc'`. -/
inductive SortOrder where
  | asc
  | desc
deriving DecidableEq, Repr

/-- `SortKey`: `{ id: string; order: 'asc' | 'desc' }`. -/
structure SortKey where
  id : String
  order : SortOrder
deriving DecidableEq, Repr

/-- `SortByColumnOptions`: `{ disable?, getSortValue?, invert? }`. -/
structure SortByColumnOptions where
  disable : Option Bool := none
  getSortValue : Option (CellValue → SortVal) := none
  invert : Option Bool := none

/-- The `columnOptions` record, as an association list with unique keys
(a JS object, keyed by column id). -/
abbrev ColumnOptions := List (String × SortByColumnOptions)

def ColumnOptions.lookup (opts : ColumnOptions) (id : String) :
    Option SortByColumnOptions :=
  List.lookup id opts

/-! ### The sort-key state machine (`createSortKeysStore`) -/

/-- `array.findIndex(pred)`, with `none` for `-1`. -/
def findIndex (p : α → Bool) : List α → Option Nat
  | [] => none
  | x :: xs => if p x then some 0 else (findIndex p xs).map (· + 1)

/-- `toggleId` of `createSortKeysStore`: the update applied to `$sortKeys`. -/
def toggleId (id : String) (multiSort : Bool) (keys : List SortKey) :
    List SortKey :=
  match findIndex (fun k => k.id == id) keys with
  | none =>
    if !multiSort then [⟨id, .asc⟩]
    else keys ++ [⟨id, .asc⟩]
  | some keyIdx =>
    let key := keys.getD keyIdx ⟨id, .asc⟩
    if !multiSort then
      if key.order = .asc then [⟨id, .desc⟩] else []
    else
      if key.order = .asc then
        keys.take keyIdx ++ [⟨id, .desc⟩] ++ keys.drop (keyIdx + 1)
      else
        keys.take keyIdx ++ keys.drop (keyIdx + 1)

/-- `clearId` of `createSortKeysStore`. -/
def clearId (id : String) (keys : List SortKey) : List SortKey :=
  match findIndex (fun k => k.id == id) keys with
  | none => keys
  | some keyIdx => keys.take keyIdx ++ keys.drop (keyIdx + 1)

/-! ### The pairwise comparator of `getSortedRows` -/

/-- The `order` computed for one key of the comparator loop, once both cells
have been read (`cellA` a data cell): apply `getSortValue` (looked up by
`cellA.id`) to both raw values when configured; otherwise compare the raw
values directly when `valueA` is a string or a number, else no signal. -/
def keyOrder (columnOptions : ColumnOptions) (cellA cellB : BodyCell) : Int :=
  let valueA := cellA.castValue
  let valueB := cellB.castValue
  match (columnOptions.lookup cellA.id).bind (·.getSortValue) with
  | some g => compareValues (g valueA).toCellValue (g valueB).toCellValue
  | none =>
    if valueA.isStringOrNumber then compareValues valueA valueB else 0

/-- The `orderFactor` of the comparator loop: `-1` when the key's direction is
`'desc'`, further negated when `columnOptions[key.id]?.invert` is `true`. -/
def keyFactor (columnOptions : ColumnOptions) (key : SortKey) : Int :=
  (if key.order = .desc then (-1 : Int) else 1) *
    (if ((columnOptions.lookup key.id).bind (·.invert)).getD false
      then (-1 : Int) else 1)

/-- The comparator `(a, b) => { for (const key of sortKeys) { … } return 0; }`
passed to `_sortedRows.sort`, iterating the keys in priority order.
`Except.error ()` models a thrown `TypeError`:
* `columnOptions[cellA.id]` dereferences `cellA` before the `instanceof`
  guard, so a missing cell for `a` throws;
* `(cellB as DataBodyCell<Item>).value` dereferences `cellB`, so once
  `cellA` passed the guard a missing cell for `b` throws. -/
def rowComparator (columnOptions : ColumnOptions) :
    List SortKey → BodyRow → BodyRow → Except Unit Int
  | [], _, _ => .ok 0
  | key :: rest, a, b =>
    match a.cellForId key.id with
    | none => .error ()
    | some cellA =>
      if !cellA.isDataCell then .ok 0
      else
        match b.cellForId key.id with
        | none => .error ()
        | some cellB =>
          let order := keyOrder columnOptions cellA cellB
          if order ≠ 0 then .ok (order * keyFactor columnOptions key)
          else rowComparator columnOptions rest a b

/-! ### The stable sort (`Array.prototype.sort`)

ES2019+ `Array.prototype.sort` performs a stable sort; a comparator that
throws propagates the exception out of `sort`. The engine's algorithm is
implementation-defined, so the model fixes insertion sort, the canonical
stable sort: for every consistent comparator it computes the unique stable
ordering mandated by the JS specification. -/

/-- Insert `x` into `l` before the first element `y` with `cmp x y ≤ 0`.
Comparator exceptions propagate. -/
def insertE (cmp : α → α → Except Unit Int) (x : α) : List α → Except Unit (List α)
  | [] => .ok [x]
  | y :: ys => do
    let c ← cmp x y
    if c ≤ 0 then .ok (x :: y :: ys)
    else
      let zs ← insertE cmp x ys
      .ok (y :: zs)

/-- Stable sort by the comparator `cmp`; models `array.sort(cmp)`. -/
def sortE (cmp : α → α → Except Unit Int) : List α → Except Unit (List α)
  | [] => .ok []
  | x :: xs => do
    let s ← sortE cmp xs
    insertE cmp x s

/-- `insertE` splits the list at one point and puts `x` there. -/
theorem insertE_split {cmp : α → α → Except Unit Int} {x : α} :
    ∀ {l t : List α}, insertE cmp x l = .ok t →
      ∃ p q, l = p ++ q ∧ t = p ++ x :: q := by
  intro l
  induction l with
  | nil =>
    intro t ht
    exact ⟨[], [], rfl, by simpa [insertE] using ht.symm⟩
  | cons y ys ih =>
    intro t ht
    simp only [insertE] at ht
    cases hc : cmp x y with
    | error e => rw [hc] at ht; simp [Bind.bind, Except.bind] at ht
    | ok c =>
      rw [hc] at ht
      simp only [Bind.bind, Except.bind] at ht
      by_cases hle : c ≤ 0
      · rw [if_pos hle] at ht
        refine ⟨[], y :: ys, rfl, ?_⟩
        simpa using ht.symm
      · rw [if_neg hle] at ht
        cases hrec : insertE cmp x ys with
        | error e => rw [hrec] at ht; simp at ht
        | ok zs =>
          rw [hrec] at ht
          simp only [Except.ok.injEq] at ht
          obtain ⟨p, q, hpq, hzs⟩ := ih hrec
          exact ⟨y :: p, q, by simp [hpq], by simp [← ht, hzs]⟩

theorem insertE_perm {cmp : α → α → Except Unit Int} {x : α} {l t : List α}
    (h : insertE cmp x l = .ok t) : t.Perm (x :: l) := by
  obtain ⟨p, q, hpq, ht⟩ := insertE_split h
  rw [ht, hpq]
  exact List.perm_middle

theorem sortE_perm {cmp : α → α → Except Unit Int} :
    ∀ {l s : List α}, sortE cmp l = .ok s → s.Perm l := by
  intro l
  induction l with
  | nil => intro s hs; simp [sortE] at hs; simp [← hs]
  | cons x xs ih =>
    intro s hs
    simp only [sortE, Bind.bind, Except.bind] at hs
    cases hrec : sortE cmp xs with
    | error e => rw [hrec] at hs; simp at hs
    | ok s' =>
      rw [hrec] at hs
      exact (insertE_perm hs).trans ((ih hrec).cons x)

theorem sortE_mem {cmp : α → α → Except Unit Int} {l s : List α}
    (h : sortE cmp l = .ok s) {r : α} (hr : r ∈ s) : r ∈ l :=
  (sortE_perm h).mem_iff.mp hr

/-! ### The hierarchical sorter (`getSortedRows`) -/

/-- Modelled from the spec: `getCloned` from `$lib/utils/clone` is not under
`src/`. Per the spec, the sorted copy of a row replaces only its `subRows`
field; all other fields are structurally shared. -/
def getCloned (r : BodyRow) (subRows : List BodyRow) : BodyRow :=
  BodyRow.mk r.cells (some subRows)

/-- The comparator closure over rows, reading the keyed-cell mapping. -/
def rowCmp (columnOptions : ColumnOptions) (sortKeys : List SortKey)
    (a b : BodyRow) : Except Unit Int :=
  rowComparator columnOptions sortKeys a b

theorem sizeOf_subRows_lt {r : BodyRow} {subs : List BodyRow}
    (h : r.subRows = some subs) : sizeOf subs < sizeOf r := by
  cases r with
  | mk cs s =>
    simp only [BodyRow.subRows] at h
    subst h
    simp
    omega

mutual

/-- `getSortedRows(rows, sortKeys, columnOptions)`: shallow-copies the level,
stably sorts the copy with `rowComparator`, then replaces each sorted row's
`subRows` (when present) with the recursively sorted sub-rows. A thrown
`TypeError` from the comparator propagates as `.error ()`. -/
def getSortedRows (sortKeys : List SortKey) (columnOptions : ColumnOptions)
    (rows : List BodyRow) : Except Unit (List BodyRow) :=
  match hs : sortE (rowCmp columnOptions sortKeys) rows with
  | .error e => .error e
  | .ok sorted =>
    resortForest sortKeys columnOptions rows sorted
      (fun r hr => List.sizeOf_lt_of_mem (sortE_mem hs hr))
termination_by (sizeOf rows + 1, 0)
decreasing_by
  apply Prod.Lex.left
  omega

/-- The `for` loop of `getSortedRows`, walking the sorted level and
recursively sorting each row's `subRows` when present. The parameter `rows0`
(the level before sorting) and the proof `h` only serve termination. -/
def resortForest (sortKeys : List SortKey) (columnOptions : ColumnOptions)
    (rows0 : List BodyRow) (l : List BodyRow)
    (h : ∀ r ∈ l, sizeOf r < sizeOf rows0) :
    Except Unit (List BodyRow) :=
  match l with
  | [] => .ok []
  | .mk cells none :: rest => do
    let tail ← resortForest sortKeys columnOptions rows0 rest
      (fun x hx => h x (List.mem_cons_of_mem _ hx))
    .ok (BodyRow.mk cells none :: tail)
  | .mk cells (some subs) :: rest => do
    let sortedSub ← getSortedRows sortKeys columnOptions subs
    let tail ← resortForest sortKeys columnOptions rows0 rest
      (fun x hx => h x (List.mem_cons_of_mem _ hx))
    .ok (getCloned (BodyRow.mk cells (some subs)) sortedSub :: tail)
termination_by (sizeOf rows0, sizeOf l)
decreasing_by
  all_goals
    first
      | (apply Prod.Lex.left
         have h1 := h (BodyRow.mk cells (some subs)) (List.mem_cons_self _ rest)
         simp at h1
         simp
         omega)
      | (apply Prod.Lex.right
         simp)

end

/-- One iteration of the resorting loop, as a standalone function on a row:
keep a row without `subRows` unchanged, otherwise replace its `subRows` with
the recursively sorted sub-rows. -/
def resortRow (sortKeys : List SortKey) (columnOptions : ColumnOptions)
    (r : BodyRow) : Except Unit BodyRow :=
  match r.subRows with
  | none => .ok r
  | some subs => (getSortedRows sortKeys columnOptions subs).map (getCloned r)

theorem except_bind_ok {α β : Type} {e : Except Unit α} {f : α → Except Unit β}
    {b : β} : (e >>= f) = .ok b ↔ ∃ a, e = .ok a ∧ f a = .ok b := by
  cases e
  · simp [Bind.bind, Except.bind]
  · simp [Bind.bind, Except.bind]

theorem except_map_ok {α β : Type} {e : Except Unit α} {f : α → β} {b : β} :
    e.map f = .ok b ↔ ∃ a, e = .ok a ∧ f a = b := by
  cases e
  · simp [Except.map]
  · simp [Except.map]

/-- The loop `resortForest` is the element-wise (monadic) map of
`resortRow` over the level. -/
theorem resortForest_ok_iff {sortKeys : List SortKey}
    {columnOptions : ColumnOptions} {rows0 : List BodyRow} :
    ∀ {l : List BodyRow} (h : ∀ r ∈ l, sizeOf r < sizeOf rows0)
      {out : List BodyRow},
      resortForest sortKeys columnOptions rows0 l h = .ok out ↔
        List.Forall₂ (fun r o => resortRow sortKeys columnOptions r = .ok o)
          l out := by
  intro l
  induction l with
  | nil =>
    intro h out
    simp only [resortForest]
    constructor
    · intro he
      cases he
      exact List.Forall₂.nil
    · intro hf
      cases hf
      rfl
  | cons r rest ih =>
    intro h out
    cases r with
    | mk cells subr =>
      cases subr with
      | none =>
        simp only [resortForest, except_bind_ok]
        constructor
        · rintro ⟨tail, htail, hout⟩
          cases hout
          exact List.Forall₂.cons (by simp [resortRow, BodyRow.subRows])
            ((ih _).mp htail)
        · intro hf
          cases hf with
          | cons h1 h2 =>
            simp only [resortRow, BodyRow.subRows] at h1
            cases h1
            exact ⟨_, (ih _).mpr h2, rfl⟩
      | some subs =>
        simp only [resortForest, except_bind_ok]
        constructor
        · rintro ⟨sortedSub, hsub, tail, htail, hout⟩
          cases hout
          refine List.Forall₂.cons ?_ ((ih _).mp htail)
          simp [resortRow, BodyRow.subRows, except_map_ok, hsub]
        · intro hf
          cases hf with
          | cons h1 h2 =>
            simp only [resortRow, BodyRow.subRows, except_map_ok] at h1
            obtain ⟨sortedSub, hsub, rfl⟩ := h1
            exact ⟨sortedSub, hsub, _, (ih _).mpr h2, rfl⟩

/-- `getSortedRows` succeeds exactly when the stable level sort succeeds and
every sorted row's sub-rows recursively sort; the output is the element-wise
resorting of the stably sorted level. -/
theorem getSortedRows_ok_iff {sortKeys : List SortKey}
    {columnOptions : ColumnOptions} {rows out : List BodyRow} :
    getSortedRows sortKeys columnOptions rows = .ok out ↔
      ∃ s, sortE (rowCmp columnOptions sortKeys) rows = .ok s ∧
        List.Forall₂ (fun r o => resortRow sortKeys columnOptions r = .ok o)
          s out := by
  simp only [getSortedRows]
  split
  · rename_i e heq
    constructor
    · intro h
      cases h
    · rintro ⟨s, hs, _⟩
      rw [heq] at hs
      cases hs
  · rename_i sorted heq
    rw [resortForest_ok_iff]
    constructor
    · intro h
      exact ⟨sorted, heq, h⟩
    · rintro ⟨s, hs, hf⟩
      rw [heq] at hs
      cases hs
      exact hf

/-! ### Generic facts about the stable sort -/

theorem insertE_congr {cmp1 cmp2 : α → α → Except Unit Int}
    (h : ∀ a b, cmp1 a b = cmp2 a b) (x : α) :
    ∀ l, insertE cmp1 x l = insertE cmp2 x l
  | [] => rfl
  | y :: ys => by
    simp only [insertE, h x y, insertE_congr h x ys]

theorem sortE_congr {cmp1 cmp2 : α → α → Except Unit Int}
    (h : ∀ a b, cmp1 a b = cmp2 a b) :
    ∀ l, sortE cmp1 l = sortE cmp2 l
  | [] => rfl
  | x :: xs => by
    simp only [sortE, sortE_congr h xs]
    cases sortE cmp2 xs with
    | error e => rfl
    | ok s => simp only [Bind.bind, Except.bind, insertE_congr h x s]

/-- If `x` ties with some `y` of the list, inserting `x` lands strictly
before that occurrence of `y`. -/
theorem insertE_mem_before {cmp : α → α → Except Unit Int} {x y : α} :
    ∀ {l t : List α}, insertE cmp x l = .ok t → cmp x y = .ok 0 → y ∈ l →
      ∃ p q, t = p ++ x :: q ∧ y ∈ q := by
  intro l
  induction l with
  | nil =>
    intro t _ _ hy
    cases hy
  | cons w ws ih =>
    intro t ht h0 hy
    simp only [insertE] at ht
    cases hc : cmp x w with
    | error e =>
      rw [hc] at ht
      simp [Bind.bind, Except.bind] at ht
    | ok c =>
      rw [hc] at ht
      simp only [Bind.bind, Except.bind] at ht
      by_cases hle : c ≤ 0
      · rw [if_pos hle] at ht
        cases ht
        exact ⟨[], w :: ws, rfl, hy⟩
      · rw [if_neg hle] at ht
        cases hrec : insertE cmp x ws with
        | error e =>
          rw [hrec] at ht
          simp at ht
        | ok zs =>
          rw [hrec] at ht
          simp only [Except.ok.injEq] at ht
          cases List.mem_cons.mp hy with
          | inl hyw =>
            subst hyw
            rw [h0] at hc
            cases hc
            exact absurd le_rfl hle
          | inr hyws =>
            obtain ⟨p, q, hzs, hyq⟩ := ih hrec h0 hyws
            exact ⟨w :: p, q, by simp [← ht, hzs], hyq⟩

/-- Stability of the model sort: a tie (`cmp x y = 0`) between `x` occurring
before `y` in the input is preserved in the output. -/
theorem sortE_stable {cmp : α → α → Except Unit Int} {x y : α} :
    ∀ {l s : List α}, sortE cmp l = .ok s → [x, y].Sublist l →
      cmp x y = .ok 0 → [x, y].Sublist s := by
  intro l
  induction l with
  | nil =>
    intro s _ hxy _
    cases hxy
  | cons z rest ih =>
    intro s hs hxy h0
    simp only [sortE, Bind.bind, Except.bind] at hs
    cases hrec : sortE cmp rest with
    | error e =>
      rw [hrec] at hs
      simp at hs
    | ok s' =>
      rw [hrec] at hs
      cases hxy with
      | cons _ hxy' =>
        have hsub : [x, y].Sublist s' := ih hrec hxy' h0
        obtain ⟨p, q, hl, ht⟩ := insertE_split hs
        rw [ht]
        exact (hl ▸ hsub).trans ((List.sublist_cons_self z q).append_left p)
      | cons₂ _ hy' =>
        have hymem : y ∈ s' :=
          (sortE_perm hrec).mem_iff.mpr (hy'.subset (List.mem_singleton_self y))
        obtain ⟨p, q, ht, hyq⟩ := insertE_mem_before hs h0 hymem
        rw [ht]
        have h1 : [x, y].Sublist (x :: q) :=
          (List.singleton_sublist.mpr hyq).cons₂ x
        exact h1.trans (List.sublist_append_right p (x :: q))

/-! ### Antisymmetry of the modelled comparison -/

theorem signOfCmp_antisymm {β : Type} [LinearOrder β] (x y : β) :
    signOfCmp y x = -signOfCmp x y := by
  unfold signOfCmp
  rcases lt_trichotomy x y with h | h | h
  · simp [h, lt_asymm h]
  · simp [h, lt_irrefl]
  · simp [h, lt_asymm h]

theorem comparePrim_antisymm (a b : Prim) :
    comparePrim b a = -comparePrim a b := by
  cases a <;> cases b <;>
    first
      | exact signOfCmp_antisymm _ _
      | simp [comparePrim]

theorem comparePrimList_antisymm :
    ∀ (a b : List Prim), comparePrimList b a = -comparePrimList a b
  | [], [] => by simp [comparePrimList]
  | [], _ :: _ => by simp [comparePrimList]
  | _ :: _, [] => by simp [comparePrimList]
  | a :: as, b :: bs => by
    simp only [comparePrimList]
    rw [comparePrim_antisymm a b]
    by_cases h : comparePrim a b = 0
    · simp [h, comparePrimList_antisymm as bs]
    · simp [h]

theorem compareValues_antisymm (a b : CellValue) :
    compareValues b a = -compareValues a b := by
  cases a <;> cases b <;>
    first
      | exact signOfCmp_antisymm _ _
      | exact comparePrimList_antisymm _ _
      | simp [compareValues]

/-- The `getSortValue`-less branch of `keyOrder` is antisymmetric even though
the `typeof` test only inspects the first value. -/
theorem directional_compare (vA vB : CellValue) :
    (if vB.isStringOrNumber then compareValues vB vA else 0) =
    -(if vA.isStringOrNumber then compareValues vA vB else 0) := by
  cases vA <;> cases vB <;>
    simp only [CellValue.isStringOrNumber, if_true, if_false, Bool.false_eq_true,
      ite_true, ite_false, neg_zero] <;>
    first
      | exact compareValues_antisymm _ _
      | simp [compareValues]

theorem cellForId_id {r : BodyRow} {k : String} {c : BodyCell}
    (h : r.cellForId k = some c) : c.id = k := by
  unfold BodyRow.cellForId at h
  have hp := List.find?_some h
  simpa using hp

theorem keyOrder_flip {columnOptions : ColumnOptions} {cellA cellB : BodyCell}
    (hid : cellB.id = cellA.id) :
    keyOrder columnOptions cellB cellA = -keyOrder columnOptions cellA cellB := by
  unfold keyOrder
  rw [hid]
  cases (columnOptions.lookup cellA.id).bind (·.getSortValue) with
  | none => exact directional_compare _ _
  | some g => exact compareValues_antisymm _ _

/-- Sign flip of the comparator: if `a` compares strictly after `b`, then in
the swapped direction the comparator succeeds with a non-positive answer.
(The converse-direction answer may be `0` rather than `-n`: a non-data cell
on the other row's side short-circuits the whole comparator to `0`.) -/
theorem rowComparator_flip {columnOptions : ColumnOptions} :
    ∀ {sortKeys : List SortKey} {a b : BodyRow} {n : Int},
      rowComparator columnOptions sortKeys a b = .ok n → 0 < n →
      ∃ m, rowComparator columnOptions sortKeys b a = .ok m ∧ m ≤ 0 := by
  intro keys
  induction keys with
  | nil =>
    intro a b n h hn
    simp only [rowComparator] at h
    injection h with h0
    omega
  | cons key rest ih =>
    intro a b n h hn
    simp only [rowComparator] at h ⊢
    cases hA : a.cellForId key.id with
    | none =>
      rw [hA] at h
      cases h
    | some cellA =>
      rw [hA] at h
      simp only [] at h
      cases hcellA : cellA.isDataCell with
      | false =>
        simp only [hcellA, Bool.not_false, if_true] at h
        injection h with h0
        omega
      | true =>
        simp only [hcellA, Bool.not_true, Bool.false_eq_true, if_false] at h
        cases hB : b.cellForId key.id with
        | none =>
          rw [hB] at h
          simp only [] at h
          cases h
        | some cellB =>
          rw [hB] at h
          simp only [] at h ⊢
          cases hcellB : cellB.isDataCell with
          | false =>
            refine ⟨0, ?_, le_refl 0⟩
            simp [hcellB]
          | true =>
            simp only [hcellB, Bool.not_true, Bool.false_eq_true, if_false]
            have hflip : keyOrder columnOptions cellB cellA =
                -keyOrder columnOptions cellA cellB :=
              keyOrder_flip ((cellForId_id hB).trans (cellForId_id hA).symm)
            by_cases hord : keyOrder columnOptions cellA cellB = 0
            · rw [if_neg (by simp [hord])] at h
              obtain ⟨m, hm, hmle⟩ := ih h hn
              refine ⟨m, ?_, hmle⟩
              rw [if_neg (by simp [hflip, hord])]
              exact hm
            · rw [if_pos (by simpa using hord)] at h
              injection h with h0
              refine ⟨-n, ?_, by omega⟩
              rw [if_pos (by rw [hflip]; simpa using hord), hflip]
              rw [← h0]
              congr 1
              ring
/-! ### Chains, fixed points and idempotence of the sort -/

theorem cellForId_congr {a a' : BodyRow} (h : a.cells = a'.cells)
    (k : String) : a.cellForId k = a'.cellForId k := by
  unfold BodyRow.cellForId
  rw [h]

/-- The comparator reads rows only through their keyed-cell mapping. -/
theorem rowComparator_cells {columnOptions : ColumnOptions} :
    ∀ {sortKeys : List SortKey} {a b a' b' : BodyRow},
      a.cells = a'.cells → b.cells = b'.cells →
      rowComparator columnOptions sortKeys a b =
        rowComparator columnOptions sortKeys a' b' := by
  intro keys
  induction keys with
  | nil =>
    intro a b a' b' _ _
    rfl
  | cons key rest ih =>
    intro a b a' b' ha hb
    simp only [rowComparator]
    rw [cellForId_congr ha key.id, cellForId_congr hb key.id, ih ha hb]

/-- The "may stay before" relation of a comparator: the comparison succeeded
with a non-positive answer. -/
def leOk (cmp : α → α → Except Unit Int) (a b : α) : Prop :=
  ∃ m, cmp a b = .ok m ∧ m ≤ 0

theorem insertE_head {cmp : α → α → Except Unit Int} {x : α} :
    ∀ {l t : List α}, insertE cmp x l = .ok t →
      t.head? = some x ∨ t.head? = l.head? := by
  intro l t ht
  cases l with
  | nil =>
    simp only [insertE] at ht
    cases ht
    exact Or.inl rfl
  | cons y ys =>
    simp only [insertE] at ht
    cases hc : cmp x y with
    | error e =>
      rw [hc] at ht
      simp [Bind.bind, Except.bind] at ht
    | ok c =>
      rw [hc] at ht
      simp only [Bind.bind, Except.bind] at ht
      by_cases hle : c ≤ 0
      · rw [if_pos hle] at ht
        cases ht
        exact Or.inl rfl
      · rw [if_neg hle] at ht
        cases hrec : insertE cmp x ys with
        | error e =>
          rw [hrec] at ht
          simp at ht
        | ok zs =>
          rw [hrec] at ht
          simp only [Except.ok.injEq] at ht
          rw [← ht]
          exact Or.inr rfl

theorem insertE_chain {cmp : α → α → Except Unit Int}
    (hflip : ∀ a b n, cmp a b = .ok n → 0 < n → leOk cmp b a) {x : α} :
    ∀ {l t : List α}, insertE cmp x l = .ok t → l.Chain' (leOk cmp) →
      t.Chain' (leOk cmp) := by
  intro l
  induction l with
  | nil =>
    intro t ht _
    simp only [insertE] at ht
    cases ht
    simp
  | cons y ys ih =>
    intro t ht hl
    simp only [insertE] at ht
    cases hc : cmp x y with
    | error e =>
      rw [hc] at ht
      simp [Bind.bind, Except.bind] at ht
    | ok c =>
      rw [hc] at ht
      simp only [Bind.bind, Except.bind] at ht
      by_cases hle : c ≤ 0
      · rw [if_pos hle] at ht
        cases ht
        exact List.Chain'.cons ⟨c, hc, hle⟩ hl
      · rw [if_neg hle] at ht
        cases hrec : insertE cmp x ys with
        | error e =>
          rw [hrec] at ht
          simp at ht
        | ok zs =>
          rw [hrec] at ht
          simp only [Except.ok.injEq] at ht
          rw [← ht]
          rw [List.chain'_cons']
          refine ⟨?_, ih hrec hl.tail⟩
          intro z hz
          simp only [Option.mem_def] at hz
          cases insertE_head hrec with
          | inl hx =>
            rw [hx] at hz
            cases hz
            exact hflip x y c hc (by omega)
          | inr hy =>
            rw [hy] at hz
            exact (List.chain'_cons'.mp hl).1 z hz

theorem sortE_chain {cmp : α → α → Except Unit Int}
    (hflip : ∀ a b n, cmp a b = .ok n → 0 < n → leOk cmp b a) :
    ∀ {l s : List α}, sortE cmp l = .ok s → s.Chain' (leOk cmp) := by
  intro l
  induction l with
  | nil =>
    intro s hs
    simp only [sortE] at hs
    cases hs
    simp
  | cons x xs ih =>
    intro s hs
    simp only [sortE, Bind.bind, Except.bind] at hs
    cases hrec : sortE cmp xs with
    | error e =>
      rw [hrec] at hs
      simp at hs
    | ok s' =>
      rw [hrec] at hs
      exact insertE_chain hflip hs (ih hrec)

/-- A level already linked by the comparator is a fixed point of the sort. -/
theorem sortE_of_chain {cmp : α → α → Except Unit Int} :
    ∀ {l : List α}, l.Chain' (leOk cmp) → sortE cmp l = .ok l := by
  intro l
  induction l with
  | nil =>
    intro _
    rfl
  | cons x xs ih =>
    intro hl
    simp only [sortE, Bind.bind, Except.bind]
    rw [ih hl.tail]
    cases xs with
    | nil => rfl
    | cons y ys =>
      obtain ⟨m, hm, hmle⟩ := (List.chain'_cons.mp hl).1
      simp only [insertE, hm, Bind.bind, Except.bind]
      rw [if_pos hmle]

theorem chain_transfer {α : Type} {R E : α → α → Prop}
    (hE : ∀ a a' b b', E a a' → E b b' → R a b → R a' b') :
    ∀ {l l' : List α}, List.Forall₂ E l l' → l.Chain' R → l'.Chain' R := by
  intro l l' hf
  induction hf with
  | nil =>
    intro _
    exact List.chain'_nil
  | cons h1 h2 ih =>
    intro hc
    rw [List.chain'_cons']
    refine ⟨?_, ih hc.tail⟩
    intro b' hb'
    cases h2 with
    | nil => simp at hb'
    | cons hE2 h3 =>
      simp only [List.head?_cons, Option.mem_def, Option.some.injEq] at hb'
      subst hb'
      exact hE _ _ _ _ h1 hE2 (List.chain'_cons.mp hc).1

theorem resortRow_cells {sortKeys : List SortKey}
    {columnOptions : ColumnOptions} {r o : BodyRow}
    (h : resortRow sortKeys columnOptions r = .ok o) : o.cells = r.cells := by
  unfold resortRow at h
  cases hsub : r.subRows with
  | none =>
    rw [hsub] at h
    cases h
    rfl
  | some subs =>
    rw [hsub] at h
    rw [except_map_ok] at h
    obtain ⟨subs', _, rfl⟩ := h
    rfl

theorem forall₂_self_of {α : Type} {R S : α → α → Prop} :
    ∀ {l l' : List α}, List.Forall₂ R l l' →
      (∀ a b, a ∈ l → R a b → S b b) → List.Forall₂ S l' l' := by
  intro l l' hf
  induction hf with
  | nil =>
    intro _
    exact .nil
  | cons h1 h2 ih =>
    intro hS
    exact .cons (hS _ _ (List.mem_cons_self _ _) h1)
      (ih fun a b ha hr => hS a b (List.mem_cons_of_mem _ ha) hr)

theorem getSortedRows_idem_aux {sortKeys : List SortKey}
    {columnOptions : ColumnOptions} :
    ∀ (n : Nat) (rows out : List BodyRow), sizeOf rows < n →
      getSortedRows sortKeys columnOptions rows = .ok out →
      getSortedRows sortKeys columnOptions out = .ok out := by
  intro n
  induction n with
  | zero =>
    intro rows out h
    omega
  | succ n ih =>
    intro rows out hsz hok
    rw [getSortedRows_ok_iff] at hok
    obtain ⟨s, hsort, hf⟩ := hok
    have hflip : ∀ a b m, rowCmp columnOptions sortKeys a b = .ok m → 0 < m →
        leOk (rowCmp columnOptions sortKeys) b a := by
      intro a b m hab hm
      exact rowComparator_flip hab hm
    have hchain_s := sortE_chain hflip hsort
    have hcells : List.Forall₂ (fun r o => o.cells = r.cells) s out :=
      hf.imp (fun _ _ hro => resortRow_cells hro)
    have hchain_out : out.Chain' (leOk (rowCmp columnOptions sortKeys)) := by
      refine chain_transfer ?_ hcells hchain_s
      intro a a' b b' ha hb ⟨m, hm, hmle⟩
      refine ⟨m, ?_, hmle⟩
      rw [← hm]
      exact rowComparator_cells ha hb
    have hself : List.Forall₂
        (fun r o => resortRow sortKeys columnOptions r = .ok o) out out := by
      refine forall₂_self_of hf ?_
      intro r o hr hro
      unfold resortRow at hro ⊢
      cases hsub : r.subRows with
      | none =>
        rw [hsub] at hro
        cases hro
        rw [hsub]
      | some subs =>
        rw [hsub] at hro
        rw [except_map_ok] at hro
        obtain ⟨subs', hs', rfl⟩ := hro
        have hsubo : (getCloned r subs').subRows = some subs' := rfl
        simp only [hsubo]
        have hszsub : sizeOf subs < n := by
          have h1 : sizeOf r < sizeOf rows :=
            List.sizeOf_lt_of_mem (sortE_mem hsort hr)
          have h2 := sizeOf_subRows_lt hsub
          omega
        have hidem : getSortedRows sortKeys columnOptions subs' = .ok subs' :=
          ih subs subs' hszsub hs'
        rw [hidem]
        rfl
    rw [getSortedRows_ok_iff]
    exact ⟨out, sortE_of_chain hchain_out, hself⟩

/-- Re-sorting an already sorted forest with the same keys and options
returns it unchanged (and in particular succeeds). -/
theorem getSortedRows_idem {sortKeys : List SortKey}
    {columnOptions : ColumnOptions} {rows out : List BodyRow}
    (h : getSortedRows sortKeys columnOptions rows = .ok out) :
    getSortedRows sortKeys columnOptions out = .ok out :=
  getSortedRows_idem_aux (sizeOf rows + 1) rows out (by omega) h

/-! ### Facts about `findIndex` and the key state machine -/

theorem findIndex_eq_none {p : α → Bool} :
    ∀ {l : List α}, findIndex p l = none ↔ ∀ x ∈ l, p x = false := by
  intro l
  induction l with
  | nil => simp [findIndex]
  | cons x xs ih =>
    rw [findIndex]
    by_cases hx : p x = true
    · simp [hx]
    · have hx' : p x = false := by simpa using hx
      simp [hx', ih, Option.map_eq_none']

theorem findIndex_eq_some {p : α → Bool} :
    ∀ {l : List α} {i : Nat}, findIndex p l = some i →
      ∃ l1 x l2, l = l1 ++ x :: l2 ∧ l1.length = i ∧ p x = true ∧
        ∀ y ∈ l1, p y = false := by
  intro l
  induction l with
  | nil =>
    intro i h
    rw [findIndex] at h
    cases h
  | cons x xs ih =>
    intro i h
    by_cases hx : p x
    · rw [findIndex, if_pos hx] at h
      cases h
      refine ⟨[], x, xs, rfl, rfl, hx, ?_⟩
      intro y hy
      exact absurd hy (List.not_mem_nil y)
    · rw [findIndex, if_neg hx] at h
      cases hrec : findIndex p xs with
      | none =>
        rw [hrec] at h
        cases h
      | some j =>
        rw [hrec] at h
        simp at h
        obtain ⟨l1, y, l2, hsplit, hlen, hy, hl1⟩ := ih hrec
        refine ⟨x :: l1, y, l2, by simp [hsplit], ?_, hy, ?_⟩
        · simp only [List.length_cons, hlen]
          omega
        intro z hz
        cases List.mem_cons.mp hz with
        | inl hzx =>
          subst hzx
          simpa using hx
        | inr hzl => exact hl1 z hzl

theorem findIndex_append_not {p : α → Bool} {l1 : List α} {x : α} {l2 : List α}
    (h1 : ∀ y ∈ l1, p y = false) (hx : p x = true) :
    findIndex p (l1 ++ x :: l2) = some l1.length := by
  induction l1 with
  | nil => simp [findIndex, hx]
  | cons a as ih =>
    have ha := h1 a (List.mem_cons_self _ _)
    rw [List.cons_append, findIndex, if_neg (by simp [ha])]
    rw [ih (fun y hy => h1 y (List.mem_cons_of_mem _ hy))]
    rfl

theorem getD_append_length (l1 : List α) (x : α) (l2 : List α) (d : α) :
    (l1 ++ x :: l2).getD l1.length d = x := by
  induction l1 with
  | nil => rfl
  | cons a as ih => simpa [List.getD] using ih

theorem take_append_length (l1 : List α) (x : α) (l2 : List α) :
    (l1 ++ x :: l2).take l1.length = l1 := by
  induction l1 with
  | nil => rfl
  | cons a as ih => simpa using ih

theorem drop_append_length (l1 : List α) (x : α) (l2 : List α) :
    (l1 ++ x :: l2).drop (l1.length + 1) = l2 := by
  induction l1 with
  | nil => rfl
  | cons a as ih => simpa using ih

/-- Key-id uniqueness: no two entries share a `columnId`. -/
def KeysUnique (keys : List SortKey) : Prop :=
  keys.Pairwise (fun k1 k2 => k1.id ≠ k2.id)

theorem toggleId_unique {id : String} {multiSort : Bool}
    {keys : List SortKey} (h : KeysUnique keys) :
    KeysUnique (toggleId id multiSort keys) := by
  unfold toggleId
  cases hidx : findIndex (fun k => k.id == id) keys with
  | none =>
    have habs : ∀ k ∈ keys, k.id ≠ id := by
      intro k hk
      have hk' := findIndex_eq_none.mp hidx k hk
      simpa using hk'
    cases multiSort with
    | false =>
      simp only [Bool.not_false, if_true]
      exact List.pairwise_singleton _ _
    | true =>
      simp only [Bool.not_true, Bool.false_eq_true, if_false]
      rw [KeysUnique, List.pairwise_append]
      refine ⟨h, List.pairwise_singleton _ _, ?_⟩
      intro k hk k' hk'
      simp only [List.mem_singleton] at hk'
      subst hk'
      exact habs k hk
  | some i =>
    obtain ⟨l1, x, l2, hsplit, hlen, hx, hl1⟩ := findIndex_eq_some hidx
    have hxid : x.id = id := by simpa using hx
    subst hsplit
    rw [← hlen]
    simp only []
    rw [take_append_length, drop_append_length, getD_append_length]
    cases multiSort with
    | false =>
      simp only [Bool.not_false, if_true]
      cases hord : x.order with
      | asc =>
        rw [if_pos rfl]
        exact List.pairwise_singleton _ _
      | desc =>
        rw [if_neg (by simp)]
        exact List.Pairwise.nil
    | true =>
      simp only [Bool.not_true, Bool.false_eq_true, if_false]
      cases hord : x.order with
      | asc =>
        rw [if_pos rfl]
        have h' : List.Pairwise (fun k1 k2 : SortKey => k1.id ≠ k2.id)
            (x :: (l1 ++ l2)) :=
          (List.pairwise_middle (fun h12 => Ne.symm h12)).mp h
        have hl12 : (l1 ++ [(⟨id, .desc⟩ : SortKey)] ++ l2) =
            l1 ++ (⟨id, .desc⟩ : SortKey) :: l2 := by simp
        have hmid : List.Pairwise (fun k1 k2 : SortKey => k1.id ≠ k2.id)
            (l1 ++ (⟨id, .desc⟩ : SortKey) :: l2) ↔
            List.Pairwise (fun k1 k2 : SortKey => k1.id ≠ k2.id)
            ((⟨id, .desc⟩ : SortKey) :: (l1 ++ l2)) :=
          List.pairwise_middle (fun h12 => Ne.symm h12)
        rw [KeysUnique, hl12, hmid]
        rw [List.pairwise_cons] at h' ⊢
        refine ⟨?_, h'.2⟩
        intro y hy
        have hne := h'.1 y hy
        simpa [← hxid] using hne
      | desc =>
        rw [if_neg (by simp)]
        exact List.Pairwise.sublist
          ((List.sublist_cons_self x l2).append_left l1) h

theorem clearId_unique {id : String} {keys : List SortKey}
    (h : KeysUnique keys) : KeysUnique (clearId id keys) := by
  unfold clearId
  cases hidx : findIndex (fun k => k.id == id) keys with
  | none => exact h
  | some i =>
    obtain ⟨l1, x, l2, hsplit, hlen, _, _⟩ := findIndex_eq_some hidx
    subst hsplit
    rw [← hlen]
    simp only []
    rw [take_append_length, drop_append_length]
    exact List.Pairwise.sublist
      ((List.sublist_cons_self x l2).append_left l1) h

/-- An external interaction with the key store: one `toggleId` (with the
multi-sort mode computed from the triggering event) or one `clearId`. -/
inductive KeyOp where
  | toggle (id : String) (multiSort : Bool)
  | clear (id : String)

def applyKeyOp (keys : List SortKey) : KeyOp → List SortKey
  | .toggle id multiSort => toggleId id multiSort keys
  | .clear id => clearId id keys

/-- The key sequence after a finite run of toggle/clear interactions. -/
def applyKeyOps (init : List SortKey) (ops : List KeyOp) : List SortKey :=
  ops.foldl applyKeyOp init

theorem applyKeyOps_unique :
    ∀ {ops : List KeyOp} {init : List SortKey}, KeysUnique init →
      KeysUnique (applyKeyOps init ops) := by
  intro ops
  induction ops with
  | nil =>
    intro init h
    exact h
  | cons op rest ih =>
    intro init h
    cases op with
    | toggle id multiSort => exact ih (toggleId_unique h)
    | clear id => exact ih (clearId_unique h)

/-! ### Empty key sequence: identity at every level -/

theorem chain_leOk_of_zero {cmp : α → α → Except Unit Int}
    (h : ∀ a b, cmp a b = .ok 0) : ∀ l : List α, l.Chain' (leOk cmp) := by
  intro l
  induction l with
  | nil => exact List.chain'_nil
  | cons x xs ih =>
    rw [List.chain'_cons']
    exact ⟨fun z _ => ⟨0, h x z, le_refl 0⟩, ih⟩

theorem sortE_zero {cmp : α → α → Except Unit Int}
    (h : ∀ a b, cmp a b = .ok 0) (l : List α) : sortE cmp l = .ok l :=
  sortE_of_chain (chain_leOk_of_zero h l)

theorem getSortedRows_nil_keys_aux {columnOptions : ColumnOptions} :
    ∀ (n : Nat) (rows : List BodyRow), sizeOf rows < n →
      getSortedRows [] columnOptions rows = .ok rows := by
  intro n
  induction n with
  | zero =>
    intro rows h
    omega
  | succ n ih =>
    intro rows hsz
    rw [getSortedRows_ok_iff]
    refine ⟨rows, sortE_zero (fun a b => rfl) rows, ?_⟩
    rw [List.forall₂_same]
    intro r hr
    unfold resortRow
    cases hsub : r.subRows with
    | none => rfl
    | some subs =>
      have hsmall : sizeOf subs < n := by
        have h1 := List.sizeOf_lt_of_mem hr
        have h2 := sizeOf_subRows_lt hsub
        omega
      simp only []
      rw [ih subs hsmall]
      show Except.ok (getCloned r subs) = Except.ok r
      congr 1
      show BodyRow.mk r.cells (some subs) = r
      conv_rhs => rw [← BodyRow.eta r, hsub]

/-- With no active keys, sorting is the identity at every level. -/
theorem getSortedRows_nil_keys {columnOptions : ColumnOptions}
    (rows : List BodyRow) : getSortedRows [] columnOptions rows = .ok rows :=
  getSortedRows_nil_keys_aux (sizeOf rows + 1) rows (by omega)

/-! ### Totality on forests whose rows carry all keyed cells -/

/-- Every active key's `columnId` resolves to a cell in every row, at every
level of the forest. -/
inductive AllKeysPresent (sortKeys : List SortKey) : List BodyRow → Prop where
  | nil : AllKeysPresent sortKeys []
  | cons {cells : List BodyCell} {subr : Option (List BodyRow)}
      {rest : List BodyRow} :
      (∀ k ∈ sortKeys, ((BodyRow.mk cells subr).cellForId k.id).isSome) →
      (∀ subs, subr = some subs → AllKeysPresent sortKeys subs) →
      AllKeysPresent sortKeys rest →
      AllKeysPresent sortKeys (BodyRow.mk cells subr :: rest)

theorem AllKeysPresent_mem {sortKeys : List SortKey} :
    ∀ {rows : List BodyRow}, AllKeysPresent sortKeys rows →
      ∀ r ∈ rows, (∀ k ∈ sortKeys, (r.cellForId k.id).isSome) ∧
        (∀ subs, r.subRows = some subs → AllKeysPresent sortKeys subs) := by
  intro rows hall
  induction hall with
  | nil =>
    intro r hr
    cases hr
  | cons hcells hsubs hrest ihsub ihrest =>
    intro r hr
    cases List.mem_cons.mp hr with
    | inl hr0 =>
      subst hr0
      exact ⟨hcells, fun subs hs => hsubs subs hs⟩
    | inr h2 => exact ihrest r h2

theorem rowComparator_ok_of_present {columnOptions : ColumnOptions} :
    ∀ {sortKeys : List SortKey} {a b : BodyRow},
      (∀ k ∈ sortKeys, (a.cellForId k.id).isSome) →
      (∀ k ∈ sortKeys, (b.cellForId k.id).isSome) →
      ∃ m, rowComparator columnOptions sortKeys a b = .ok m := by
  intro keys
  induction keys with
  | nil =>
    intro a b _ _
    exact ⟨0, rfl⟩
  | cons key rest ih =>
    intro a b ha hb
    simp only [rowComparator]
    obtain ⟨cellA, hA⟩ :=
      Option.isSome_iff_exists.mp (ha key (List.mem_cons_self _ _))
    rw [hA]
    simp only []
    cases hcA : cellA.isDataCell with
    | false => exact ⟨0, by simp [hcA]⟩
    | true =>
      simp only [hcA, Bool.not_true, Bool.false_eq_true, if_false]
      obtain ⟨cellB, hB⟩ :=
        Option.isSome_iff_exists.mp (hb key (List.mem_cons_self _ _))
      rw [hB]
      simp only []
      by_cases hord : keyOrder columnOptions cellA cellB ≠ 0
      · exact ⟨_, by rw [if_pos hord]⟩
      · rw [if_neg hord]
        exact ih (fun k hk => ha k (List.mem_cons_of_mem _ hk))
          (fun k hk => hb k (List.mem_cons_of_mem _ hk))

theorem insertE_ok_of_total {cmp : α → α → Except Unit Int} {x : α} :
    ∀ {l : List α}, (∀ y ∈ l, ∃ m, cmp x y = .ok m) →
      ∃ t, insertE cmp x l = .ok t := by
  intro l
  induction l with
  | nil =>
    intro _
    exact ⟨[x], rfl⟩
  | cons y ys ih =>
    intro h
    obtain ⟨c, hc⟩ := h y (List.mem_cons_self _ _)
    simp only [insertE, hc, Bind.bind, Except.bind]
    by_cases hle : c ≤ 0
    · exact ⟨x :: y :: ys, by rw [if_pos hle]⟩
    · rw [if_neg hle]
      obtain ⟨t, ht⟩ := ih (fun z hz => h z (List.mem_cons_of_mem _ hz))
      rw [ht]
      exact ⟨y :: t, rfl⟩

theorem sortE_ok_of_total {cmp : α → α → Except Unit Int} :
    ∀ {l : List α}, (∀ a ∈ l, ∀ b ∈ l, ∃ m, cmp a b = .ok m) →
      ∃ s, sortE cmp l = .ok s := by
  intro l
  induction l with
  | nil =>
    intro _
    exact ⟨[], rfl⟩
  | cons x xs ih =>
    intro h
    obtain ⟨s, hs⟩ := ih (fun a ha b hb =>
      h a (List.mem_cons_of_mem _ ha) b (List.mem_cons_of_mem _ hb))
    obtain ⟨t, ht⟩ := insertE_ok_of_total (l := s) (fun y hy =>
      h x (List.mem_cons_self _ _) y (List.mem_cons_of_mem _ (sortE_mem hs hy)))
    refine ⟨t, ?_⟩
    simp only [sortE, Bind.bind, Except.bind]
    rw [hs]
    exact ht

theorem exists_forall₂ {α β : Type} {R : α → β → Prop} :
    ∀ {l : List α}, (∀ a ∈ l, ∃ b, R a b) →
      ∃ l', List.Forall₂ R l l' := by
  intro l
  induction l with
  | nil =>
    intro _
    exact ⟨[], .nil⟩
  | cons a as ih =>
    intro h
    obtain ⟨b, hb⟩ := h a (List.mem_cons_self _ _)
    obtain ⟨bs, hbs⟩ := ih (fun x hx => h x (List.mem_cons_of_mem _ hx))
    exact ⟨b :: bs, .cons hb hbs⟩

theorem getSortedRows_total_aux {sortKeys : List SortKey}
    {columnOptions : ColumnOptions} :
    ∀ (n : Nat) (rows : List BodyRow), sizeOf rows < n →
      AllKeysPresent sortKeys rows →
      ∃ out, getSortedRows sortKeys columnOptions rows = .ok out := by
  intro n
  induction n with
  | zero =>
    intro rows h
    omega
  | succ n ih =>
    intro rows hsz hall
    have hmem := AllKeysPresent_mem hall
    have hpairs : ∀ a ∈ rows, ∀ b ∈ rows,
        ∃ m, rowCmp columnOptions sortKeys a b = .ok m :=
      fun a ha b hb =>
        rowComparator_ok_of_present (hmem a ha).1 (hmem b hb).1
    obtain ⟨s, hs⟩ := sortE_ok_of_total hpairs
    have hres : ∀ r ∈ s, ∃ o, resortRow sortKeys columnOptions r = .ok o := by
      intro r hr
      have hrrows := sortE_mem hs hr
      unfold resortRow
      cases hsub : r.subRows with
      | none => exact ⟨r, rfl⟩
      | some subs =>
        have hsmall : sizeOf subs < n := by
          have h1 := List.sizeOf_lt_of_mem hrrows
          have h2 := sizeOf_subRows_lt hsub
          omega
        obtain ⟨subs', hsubs'⟩ := ih subs hsmall ((hmem r hrrows).2 subs hsub)
        refine ⟨getCloned r subs', ?_⟩
        simp only []
        rw [hsubs']
        rfl
    obtain ⟨out, hout⟩ := exists_forall₂ hres
    exact ⟨out, getSortedRows_ok_iff.mpr ⟨s, hs, hout⟩⟩

/-- On a forest where every row at every level carries a cell for every
active key, `getSortedRows` cannot throw. -/
theorem getSortedRows_total {sortKeys : List SortKey}
    {columnOptions : ColumnOptions} {rows : List BodyRow}
    (hall : AllKeysPresent sortKeys rows) :
    ∃ out, getSortedRows sortKeys columnOptions rows = .ok out :=
  getSortedRows_total_aux (sizeOf rows + 1) rows (by omega) hall

/-! ### Comparator congruence and the `invert` option -/

theorem forall₂_imp_mem {α β : Type} {R S : α → β → Prop} :
    ∀ {l : List α} {l' : List β}, List.Forall₂ R l l' →
      (∀ a b, a ∈ l → R a b → S a b) → List.Forall₂ S l l' := by
  intro l l' hf
  induction hf with
  | nil =>
    intro _
    exact .nil
  | cons h1 h2 ih =>
    intro h
    exact .cons (h _ _ (List.mem_cons_self _ _) h1)
      (ih fun a b ha hr => h a b (List.mem_cons_of_mem _ ha) hr)

theorem getSortedRows_congr_aux :
    ∀ (n : Nat) (sortKeys1 sortKeys2 : List SortKey)
      (columnOptions1 columnOptions2 : ColumnOptions),
      (∀ a b, rowComparator columnOptions1 sortKeys1 a b =
        rowComparator columnOptions2 sortKeys2 a b) →
      ∀ rows, sizeOf rows < n →
        getSortedRows sortKeys1 columnOptions1 rows =
          getSortedRows sortKeys2 columnOptions2 rows := by
  intro n
  induction n with
  | zero =>
    intro _ _ _ _ _ rows h
    omega
  | succ n ih =>
    intro k1 k2 o1 o2 hcmp rows hsz
    have hrr : ∀ r ∈ rows, resortRow k1 o1 r = resortRow k2 o2 r := by
      intro r hrm
      unfold resortRow
      cases hsub : r.subRows with
      | none => rfl
      | some subs =>
        have hsmall : sizeOf subs < n := by
          have h1 := List.sizeOf_lt_of_mem hrm
          have h2 := sizeOf_subRows_lt hsub
          omega
        simp only []
        rw [ih k1 k2 o1 o2 hcmp subs hsmall]
    have htrans : ∀ (ka kb : List SortKey) (oa ob : ColumnOptions),
        (∀ a b, rowComparator oa ka a b = rowComparator ob kb a b) →
        (∀ r ∈ rows, resortRow ka oa r = resortRow kb ob r) →
        ∀ out, getSortedRows ka oa rows = .ok out →
          getSortedRows kb ob rows = .ok out := by
      intro ka kb oa ob hc hrr0 out hok
      rw [getSortedRows_ok_iff] at hok ⊢
      obtain ⟨s, hs, hf⟩ := hok
      refine ⟨s, ?_, ?_⟩
      · have hseq := @sortE_congr BodyRow (rowCmp oa ka) (rowCmp ob kb)
          (fun a b => hc a b) rows
        rw [← hseq]
        exact hs
      · refine forall₂_imp_mem hf ?_
        intro r o hrm hro
        rw [← hrr0 r (sortE_mem hs hrm)]
        exact hro
    cases h1 : getSortedRows k1 o1 rows with
    | ok out => exact (htrans k1 k2 o1 o2 hcmp hrr out h1).symm
    | error e =>
      cases h2 : getSortedRows k2 o2 rows with
      | error e2 =>
        cases e
        cases e2
        rfl
      | ok out =>
        have hko := htrans k2 k1 o2 o1 (fun a b => (hcmp a b).symm)
          (fun r hrm => (hrr r hrm).symm) out h2
        rw [h1] at hko
        cases hko

/-- `columnOptions` with the `invert` flag of column `c` set to `b` (adding
an entry when the column has none), all other fields untouched. -/
def setInvert (c : String) (b : Bool) : ColumnOptions → ColumnOptions
  | [] => [(c, { invert := some b })]
  | (k, o) :: rest =>
    if k = c then (k, { o with invert := some b }) :: rest
    else (k, o) :: setInvert c b rest

theorem setInvert_lookup_invert (c : String) (b : Bool) :
    ∀ (opts : ColumnOptions),
      ((ColumnOptions.lookup (setInvert c b opts) c).bind
        (·.invert)).getD false = b := by
  intro opts
  induction opts with
  | nil => simp [setInvert, ColumnOptions.lookup, List.lookup]
  | cons e rest ih =>
    obtain ⟨k, o⟩ := e
    by_cases hk : k = c
    · subst hk
      simp [setInvert, ColumnOptions.lookup, List.lookup]
    · have hck : (c == k) = false := by
        simp [beq_eq_false_iff_ne]
        exact fun he => hk he.symm
      simp only [setInvert, if_neg hk, ColumnOptions.lookup, List.lookup, hck]
      exact ih

theorem setInvert_lookup_getSortValue (c : String) (b : Bool) (x : String) :
    ∀ (opts : ColumnOptions),
      (ColumnOptions.lookup (setInvert c b opts) x).bind (·.getSortValue) =
        (ColumnOptions.lookup opts x).bind (·.getSortValue) := by
  intro opts
  induction opts with
  | nil =>
    by_cases hx : x = c
    · subst hx
      simp [setInvert, ColumnOptions.lookup, List.lookup]
    · have hxc : (x == c) = false := by simp [hx]
      simp [setInvert, ColumnOptions.lookup, List.lookup, hxc]
  | cons e rest ih =>
    obtain ⟨k, o⟩ := e
    by_cases hk : k = c
    · subst hk
      by_cases hx : x = k
      · subst hx
        simp [setInvert, ColumnOptions.lookup, List.lookup]
      · have hxk : (x == k) = false := by simp [hx]
        simp [setInvert, ColumnOptions.lookup, List.lookup, hxk]
    · by_cases hx : x = k
      · subst hx
        simp [setInvert, if_neg hk, ColumnOptions.lookup, List.lookup]
      · have hxk : (x == k) = false := by simp [hx]
        simp only [setInvert, if_neg hk, ColumnOptions.lookup, List.lookup, hxk]
        exact ih

theorem keyOrder_setInvert (c : String) (b : Bool) (opts : ColumnOptions)
    (cA cB : BodyCell) :
    keyOrder (setInvert c b opts) cA cB = keyOrder opts cA cB := by
  unfold keyOrder
  rw [setInvert_lookup_getSortValue]

theorem keyFactor_invert_asc (opts : ColumnOptions) (c : String) :
    keyFactor (setInvert c true opts) ⟨c, .asc⟩ = -1 := by
  unfold keyFactor
  rw [setInvert_lookup_invert]
  simp

theorem keyFactor_invert_desc (opts : ColumnOptions) (c : String) :
    keyFactor (setInvert c false opts) ⟨c, .desc⟩ = -1 := by
  unfold keyFactor
  rw [setInvert_lookup_invert]
  simp

theorem rowComparator_invert_asc_desc (opts : ColumnOptions) (c : String) :
    ∀ a b, rowComparator (setInvert c true opts) [⟨c, SortOrder.asc⟩] a b =
      rowComparator (setInvert c false opts) [⟨c, SortOrder.desc⟩] a b := by
  intro a b
  simp only [rowComparator]
  cases hA : a.cellForId c with
  | none => rfl
  | some cellA =>
    simp only []
    cases hcA : cellA.isDataCell with
    | false => simp [hcA]
    | true =>
      simp only [hcA, Bool.not_true, Bool.false_eq_true, if_false]
      cases hB : b.cellForId c with
      | none => rfl
      | some cellB =>
        simp only []
        rw [keyOrder_setInvert, keyOrder_setInvert]
        by_cases hord : keyOrder opts cellA cellB ≠ 0
        · rw [if_pos hord, if_pos hord]
          rw [keyFactor_invert_asc, keyFactor_invert_desc]
        · rw [if_neg hord, if_neg hord]

/-- Sorting by a single ascending key with `invert = true` coincides with
sorting by the same key descending with `invert = false`, on every forest. -/
theorem getSortedRows_invert (opts : ColumnOptions) (c : String)
    (rows : List BodyRow) :
    getSortedRows [⟨c, .asc⟩] (setInvert c true opts) rows =
      getSortedRows [⟨c, .desc⟩] (setInvert c false opts) rows :=
  getSortedRows_congr_aux (sizeOf rows + 1) _ _ _ _
    (rowComparator_invert_asc_desc opts c) rows (by omega)

/-! ### Early return of the comparator on non-data cells -/

/-- If row `a`'s cell for the current key is not a data cell, the comparator
immediately answers `0` for the whole pair: remaining keys are never read. -/
theorem rowComparator_display_zero {columnOptions : ColumnOptions}
    {key : SortKey} {rest : List SortKey} {a b : BodyRow} {c : BodyCell}
    (hA : a.cellForId key.id = some c) (hc : c.isDataCell = false) :
    rowComparator columnOptions (key :: rest) a b = .ok 0 := by
  simp only [rowComparator]
  rw [hA]
  simp [hc]

/-! ### The `thead.tr.th` hook props -/

/-- A header cell as seen by the hook closures: its column id and whether it
is a data header cell (`cell.isData`). -/
structure HeaderCellInfo where
  id : String
  isData : Bool

/-- `disabledSortIds`: the ids of the columns whose options set
`disable === true` (computed once from `columnOptions` in `addSortBy`). -/
def disabledSortIds (columnOptions : ColumnOptions) : List String :=
  (columnOptions.filter (fun e => e.2.disable == some true)).map (·.1)

/-- The effect on the key sequence of invoking the `toggle` prop produced by
the `thead.tr.th` hook: the plugin itself suppresses non-data header cells
and disabled columns; otherwise `toggleId` runs with the multi-sort mode
`disableMultiSort ? false : isMultiSortEvent(event)` (the predicate's result
on the triggering event is a boolean input here). -/
def headerToggleUpdate (columnOptions : ColumnOptions)
    (disableMultiSort : Bool) (isMultiSortEventResult : Bool)
    (cell : HeaderCellInfo) (keys : List SortKey) : List SortKey :=
  if !cell.isData then keys
  else if (disabledSortIds columnOptions).contains cell.id then keys
  else toggleId cell.id
    (if disableMultiSort then false else isMultiSortEventResult) keys

/-- The effect on the key sequence of invoking the `clear` prop produced by
the `thead.tr.th` hook. -/
def headerClearUpdate (columnOptions : ColumnOptions)
    (cell : HeaderCellInfo) (keys : List SortKey) : List SortKey :=
  if !cell.isData then keys
  else if (disabledSortIds columnOptions).contains cell.id then keys
  else clearId cell.id keys

theorem mem_disabledSortIds {columnOptions : ColumnOptions} {c : String}
    {o : SortByColumnOptions} (hmem : (c, o) ∈ columnOptions)
    (hdis : o.disable = some true) : c ∈ disabledSortIds columnOptions := by
  unfold disabledSortIds
  refine List.mem_map.mpr ⟨(c, o), ?_, rfl⟩
  refine List.mem_filter.mpr ⟨hmem, ?_⟩
  simp [hdis]

/-! ### Heap model: the sorter never mutates its inputs

JS arrays are mutable objects; `getSortedRows` shallow-copies the level
(`[..rows]`), sorts the copy in place, and overwrites entries of the copy
with cloned rows. To make the "inputs unchanged" frame property statable,
arrays become heap cells addressed by ids and the in-place operations become
explicit state passing. Row objects are immutable values stored inside the
arrays; a row's `subRows` field holds the id of another array. -/

/-- A row object in the heap model. -/
structure HeapRow where
  cells : List BodyCell
  subRows : Option Nat
deriving DecidableEq, Repr

/-- The store of allocated JS arrays; an array id is an index. -/
structure Heap where
  arrays : List (List HeapRow)
deriving DecidableEq, Repr

/-- Allocate a fresh array holding `a`, returning the new heap and the id. -/
def Heap.alloc (h : Heap) (a : List HeapRow) : Heap × Nat :=
  (⟨h.arrays ++ [a]⟩, h.arrays.length)

/-- Read the contents of array `i`. -/
def Heap.read (h : Heap) (i : Nat) : List HeapRow :=
  h.arrays.getD i []

/-- Overwrite the contents of array `i` (in-place mutation). -/
def Heap.write (h : Heap) (i : Nat) (a : List HeapRow) : Heap :=
  ⟨h.arrays.set i a⟩

/-- The comparator applied to heap rows: identical per-key logic, reading the
rows only through their cells (`subRows` is never consulted). -/
def heapRowCmp (columnOptions : ColumnOptions) (sortKeys : List SortKey)
    (x y : HeapRow) : Except Unit Int :=
  rowComparator columnOptions sortKeys
    (BodyRow.mk x.cells none) (BodyRow.mk y.cells none)

/-- The `for` loop of `getSortedRows` over the heap, parameterized by the
recursive sub-forest sorter `recur`: `rem` indices remain, starting at index
`i` of the (freshly allocated) array `b`; each row's `subRows` array is
recursively sorted into a fresh array and the row at `i` is overwritten by a
clone pointing at it. -/
def resortLoopHGo (recur : Nat → Heap → Except Unit Nat × Heap) (b : Nat) :
    Nat → Nat → Heap → Except Unit Unit × Heap
  | 0, _, h => (.ok (), h)
  | rem + 1, i, h =>
    let row := (h.read b).getD i ⟨[], none⟩
    match row.subRows with
    | none => resortLoopHGo recur b rem (i + 1) h
    | some subsArr =>
      match recur subsArr h with
      | (.error e, h') => (.error e, h')
      | (.ok newArr, h') =>
        let h2 := h'.write b
          ((h'.read b).set i { row with subRows := some newArr })
        resortLoopHGo recur b rem (i + 1) h2

/-- `getSortedRows` over the heap: copy the level array, stably sort the
copy in place, then run the loop replacing each row's `subRows` reference by
a freshly sorted array. `fuel` bounds the recursion depth (the frame theorem
below holds for every fuel). -/
def getSortedRowsH (sortKeys : List SortKey) (columnOptions : ColumnOptions) :
    Nat → Nat → Heap → Except Unit Nat × Heap
  | 0 => fun _ h => (.error (), h)
  | fuel + 1 => fun rows h =>
    let p := h.alloc (h.read rows)
    match sortE (heapRowCmp columnOptions sortKeys) (p.1.read p.2) with
    | .error e => (.error e, p.1)
    | .ok sorted =>
      let h2 := p.1.write p.2 sorted
      match resortLoopHGo (getSortedRowsH sortKeys columnOptions fuel) p.2
          sorted.length 0 h2 with
      | (.error e, h3) => (.error e, h3)
      | (.ok _, h3) => (.ok p.2, h3)

theorem write_getD_ne {h : Heap} {i j : Nat} (hne : j ≠ i)
    (a : List HeapRow) :
    (h.write i a).arrays.getD j [] = h.arrays.getD j [] := by
  unfold Heap.write
  simp only [List.getD_eq_getElem?_getD]
  rw [List.getElem?_set_ne (fun he => hne he.symm)]

theorem write_length {h : Heap} {i : Nat} {a : List HeapRow} :
    (h.write i a).arrays.length = h.arrays.length := by
  simp [Heap.write]

theorem alloc_getD {h : Heap} {a : List HeapRow} {j : Nat}
    (hj : j < h.arrays.length) :
    ((h.alloc a).1).arrays.getD j [] = h.arrays.getD j [] := by
  unfold Heap.alloc
  exact List.getD_append _ _ _ _ hj

theorem alloc_length {h : Heap} {a : List HeapRow} :
    ((h.alloc a).1).arrays.length = h.arrays.length + 1 := by
  simp [Heap.alloc]

/-- Frame property of one `getSortedRowsH` call: the heap only grows, every
array that existed before the call holds exactly its old contents afterwards,
and a successful result is a freshly allocated array. -/
def GsrFrame (sortKeys : List SortKey) (columnOptions : ColumnOptions)
    (fuel : Nat) : Prop :=
  ∀ (rows : Nat) (h : Heap) (res : Except Unit Nat) (h' : Heap),
    getSortedRowsH sortKeys columnOptions fuel rows h = (res, h') →
    (h.arrays.length ≤ h'.arrays.length ∧
      ∀ j, j < h.arrays.length → h'.arrays.getD j [] = h.arrays.getD j []) ∧
    ∀ c, res = .ok c → h.arrays.length ≤ c

/-- Frame property of the resorting loop over array `b`, given that the
sub-forest sorter `recur` itself preserves pre-existing arrays: arrays other
than `b` that existed before are untouched and the heap only grows. -/
theorem loopGoFrame {recur : Nat → Heap → Except Unit Nat × Heap}
    (hP : ∀ rows h res h', recur rows h = (res, h') →
      h.arrays.length ≤ h'.arrays.length ∧
      ∀ j, j < h.arrays.length → h'.arrays.getD j [] = h.arrays.getD j []) :
    ∀ (b rem i : Nat) (h : Heap) (res : Except Unit Unit) (h' : Heap),
      resortLoopHGo recur b rem i h = (res, h') →
      h.arrays.length ≤ h'.arrays.length ∧
      ∀ j, j < h.arrays.length → j ≠ b →
        h'.arrays.getD j [] = h.arrays.getD j [] := by
  intro b rem
  induction rem with
  | zero =>
    intro i h res h' heq
    simp only [resortLoopHGo] at heq
    cases heq
    exact ⟨le_refl _, fun j _ _ => rfl⟩
  | succ rem ih =>
    intro i h res h' heq
    simp only [resortLoopHGo] at heq
    cases hsub : ((h.read b).getD i ⟨[], none⟩).subRows with
    | none =>
      rw [hsub] at heq
      exact ih (i + 1) h res h' heq
    | some subsArr =>
      rw [hsub] at heq
      simp only [] at heq
      cases hg : recur subsArr h with
      | mk gres h1 =>
        rw [hg] at heq
        cases gres with
        | error e =>
          simp only [] at heq
          cases heq
          obtain ⟨hlen, hpres⟩ := hP subsArr h (.error e) h' hg
          exact ⟨hlen, fun j hj _ => hpres j hj⟩
        | ok newArr =>
          simp only [] at heq
          obtain ⟨hlen1, hpres1⟩ := hP subsArr h (.ok newArr) h1 hg
          obtain ⟨hlen2, hpres2⟩ := ih (i + 1) _ res h' heq
          rw [write_length] at hlen2
          constructor
          · omega
          · intro j hj hjb
            have hstep := hpres2 j (by rw [write_length]; omega) hjb
            rw [hstep, write_getD_ne hjb, hpres1 j hj]

theorem gsrFrame_all (sortKeys : List SortKey)
    (columnOptions : ColumnOptions) :
    ∀ fuel, GsrFrame sortKeys columnOptions fuel := by
  intro fuel
  induction fuel with
  | zero =>
    intro rows h res h' heq
    simp only [getSortedRowsH] at heq
    cases heq
    exact ⟨⟨le_refl _, fun j _ => rfl⟩, fun c hc => by cases hc⟩
  | succ fuel ih =>
    intro rows h res h' heq
    simp only [getSortedRowsH] at heq
    cases hsort : sortE (heapRowCmp columnOptions sortKeys)
        ((h.alloc (h.read rows)).1.read (h.alloc (h.read rows)).2) with
    | error e =>
      rw [hsort] at heq
      simp only [] at heq
      cases heq
      refine ⟨⟨?_, ?_⟩, ?_⟩
      · rw [alloc_length]
        omega
      · intro j hj
        exact alloc_getD hj
      · intro c hc
        cases hc
    | ok sorted =>
      rw [hsort] at heq
      simp only [] at heq
      cases hloop : resortLoopHGo (getSortedRowsH sortKeys columnOptions fuel)
          (h.alloc (h.read rows)).2 sorted.length 0
          ((h.alloc (h.read rows)).1.write (h.alloc (h.read rows)).2 sorted) with
      | mk lres h3 =>
        rw [hloop] at heq
        obtain ⟨hlen2, hpres2⟩ :=
          loopGoFrame (fun rows h res h' heq' => (ih rows h res h' heq').1)
            _ _ _ _ _ _ hloop
        have hblen : (h.alloc (h.read rows)).2 = h.arrays.length := rfl
        have hw : ((h.alloc (h.read rows)).1.write
            (h.alloc (h.read rows)).2 sorted).arrays.length =
            h.arrays.length + 1 := by
          rw [write_length, alloc_length]
        have hframe : h.arrays.length ≤ h3.arrays.length ∧
            ∀ j, j < h.arrays.length →
              h3.arrays.getD j [] = h.arrays.getD j [] := by
          constructor
          · rw [hw] at hlen2
            omega
          · intro j hj
            have hjb : j ≠ (h.alloc (h.read rows)).2 := by
              rw [hblen]
              omega
            have hstep := hpres2 j (by rw [hw]; omega) hjb
            rw [hstep, write_getD_ne hjb, alloc_getD hj]
        cases lres with
        | error e =>
          simp only [] at heq
          cases heq
          exact ⟨hframe, fun c hc => by cases hc⟩
        | ok u =>
          simp only [] at heq
          cases heq
          refine ⟨hframe, ?_⟩
          intro c hc
          cases hc
          rw [hblen]

/-! ### The six transitions of the toggle cycle -/

theorem toggleId_absent_multi {id : String} {keys : List SortKey}
    (h : ∀ k ∈ keys, k.id ≠ id) :
    toggleId id true keys = keys ++ [⟨id, .asc⟩] := by
  unfold toggleId
  rw [findIndex_eq_none.mpr (fun k hk => by simp [h k hk])]
  rfl

theorem toggleId_absent_single {id : String} {keys : List SortKey}
    (h : ∀ k ∈ keys, k.id ≠ id) :
    toggleId id false keys = [⟨id, .asc⟩] := by
  unfold toggleId
  rw [findIndex_eq_none.mpr (fun k hk => by simp [h k hk])]
  rfl

theorem toggleId_asc_multi {id : String} {l1 l2 : List SortKey}
    (h : ∀ k ∈ l1, k.id ≠ id) :
    toggleId id true (l1 ++ ⟨id, .asc⟩ :: l2) = l1 ++ ⟨id, .desc⟩ :: l2 := by
  unfold toggleId
  rw [findIndex_append_not (fun y hy => by simp [h y hy]) (by simp)]
  simp only []
  rw [take_append_length, drop_append_length, getD_append_length]
  simp

theorem toggleId_desc_multi {id : String} {l1 l2 : List SortKey}
    (h : ∀ k ∈ l1, k.id ≠ id) :
    toggleId id true (l1 ++ ⟨id, .desc⟩ :: l2) = l1 ++ l2 := by
  unfold toggleId
  rw [findIndex_append_not (fun y hy => by simp [h y hy]) (by simp)]
  simp only []
  rw [take_append_length, drop_append_length, getD_append_length]
  simp

theorem toggleId_asc_single {id : String} {l1 l2 : List SortKey}
    (h : ∀ k ∈ l1, k.id ≠ id) :
    toggleId id false (l1 ++ ⟨id, .asc⟩ :: l2) = [⟨id, .desc⟩] := by
  unfold toggleId
  rw [findIndex_append_not (fun y hy => by simp [h y hy]) (by simp)]
  simp only []
  rw [getD_append_length]
  simp

theorem toggleId_desc_single {id : String} {l1 l2 : List SortKey}
    (h : ∀ k ∈ l1, k.id ≠ id) :
    toggleId id false (l1 ++ ⟨id, .desc⟩ :: l2) = [] := by
  unfold toggleId
  rw [findIndex_append_not (fun y hy => by simp [h y hy]) (by simp)]
  simp only []
  rw [getD_append_length]
  simp

/-- A sublist's image through a `Forall₂` relation is a sublist of the
image list. -/
theorem forall₂_sublist {α β : Type} {R : α → β → Prop} :
    ∀ {l' : List α} {m : List β}, List.Forall₂ R l' m →
      ∀ {l : List α}, l.Sublist l' →
        ∃ m', List.Forall₂ R l m' ∧ m'.Sublist m := by
  intro l' m hf
  induction hf with
  | nil =>
    intro l hs
    rw [List.sublist_nil.mp hs]
    exact ⟨[], .nil, List.Sublist.refl []⟩
  | cons h1 h2 ih =>
    intro l hs
    cases hs with
    | cons _ hs' =>
      obtain ⟨m', hm', hsub⟩ := ih hs'
      exact ⟨m', hm', hsub.cons _⟩
    | cons₂ _ hs' =>
      obtain ⟨m', hm', hsub⟩ := ih hs'
      exact ⟨_ :: m', .cons h1 hm', hsub.cons₂ _⟩

/-! ## Claims -/

/-- Rows for the C1 counterexample: both rows carry a non-data (display)
cell for column `k1`, and data cells with distinct numbers for column `k2`,
so the second key would discriminate the pair if it were ever consulted. -/
def c1RowA : BodyRow := .mk [.display "k1", .data "k2" (.num 1)] none

def c1RowB : BodyRow := .mk [.display "k1", .data "k2" (.num 2)] none

/-- C1, counterexample: with keys `[k1 asc, k2 asc]` where both rows' `k1`
cells are not data cells, the comparator answers `0` for the pair even
though the next key `k2` yields a nonzero ordering signal — evaluation does
not proceed to the next key, contradicting the claim that a non-DataCell is
a tie for that key only and that the pair compares equal only once all keys
are exhausted. -/
theorem claim1_counterexample :
    rowComparator [] [⟨"k1", .asc⟩, ⟨"k2", .asc⟩] c1RowA c1RowB = .ok 0 ∧
    rowComparator [] [⟨"k2", .asc⟩] c1RowA c1RowB = .ok (-1) :=
  ⟨rfl, rfl⟩

/-- C1, amended: in the pairwise comparator, if row `a`'s cell for the
current key is not a DataCell, the comparator returns `0` for the whole pair
immediately — the key contributes no ordering decision, but instead of
proceeding to the next key the rows are declared equal outright and all
remaining keys are ignored. -/
theorem claim1_nondata_returns_equal {columnOptions : ColumnOptions}
    {key : SortKey} {rest : List SortKey} {a b : BodyRow} {c : BodyCell}
    (hA : a.cellForId key.id = some c) (hc : c.isDataCell = false) :
    rowComparator columnOptions (key :: rest) a b = .ok 0 :=
  rowComparator_display_zero hA hc

theorem claim1_nondata_returns_equal_witness :
    c1RowA.cellForId "k1" = some (.display "k1") ∧
    (BodyCell.display "k1").isDataCell = false ∧
    rowComparator [] [⟨"k1", .asc⟩, ⟨"k2", .asc⟩] c1RowA c1RowB = .ok 0 :=
  ⟨rfl, rfl,
    @claim1_nondata_returns_equal [] ⟨"k1", .asc⟩ [⟨"k2", .asc⟩] c1RowA c1RowB
      (.display "k1") rfl rfl⟩

/-- A row with an empty keyed-cell mapping, for the C2 counterexample. -/
def c2RowEmpty : BodyRow := .mk [] none

/-- C2, counterexample: sort is not total. With an active key whose
`columnId` is missing from the rows' cell mappings and two rows at the
level, the comparator dereferences the missing cell
(`columnOptions[cellA.id]` with `cellA === undefined`) and throws a
TypeError, which propagates out of `getSortedRows` — not a defensive no-op. -/
theorem claim2_counterexample :
    getSortedRows [⟨"k", .asc⟩] [] [c2RowEmpty, c2RowEmpty] = .error () := by
  cases hval : getSortedRows [⟨"k", .asc⟩] [] [c2RowEmpty, c2RowEmpty] with
  | error e =>
    cases e
    rfl
  | ok out =>
    rw [getSortedRows_ok_iff] at hval
    obtain ⟨s, hs, _⟩ := hval
    have hrfl : sortE (rowCmp [] [⟨"k", .asc⟩]) [c2RowEmpty, c2RowEmpty] =
        .error () := rfl
    rw [hrfl] at hs
    cases hs

/-- C2, amended: sort is total on every forest in which each active key's
`columnId` resolves to a cell in every row at every level (the cell may be
of any kind); only a missing cell can make it throw. -/
theorem claim2_total_when_keys_present {sortKeys : List SortKey}
    {columnOptions : ColumnOptions} {rows : List BodyRow}
    (hall : AllKeysPresent sortKeys rows) :
    ∃ out, getSortedRows sortKeys columnOptions rows = .ok out :=
  getSortedRows_total hall

/-- A flat data row carrying one numeric cell for column `k`. -/
def c2RowK (n : Int) : BodyRow := .mk [.data "k" (.num n)] none

theorem claim2_total_when_keys_present_witness :
    AllKeysPresent [⟨"k", .asc⟩] [c2RowK 2, c2RowK 1] ∧
    ∃ out, getSortedRows [⟨"k", .asc⟩] [] [c2RowK 2, c2RowK 1] = .ok out := by
  have hall : AllKeysPresent [⟨"k", .asc⟩] [c2RowK 2, c2RowK 1] := by
    refine .cons (by decide) (fun subs hs => by cases hs) ?_
    refine .cons (by decide) (fun subs hs => by cases hs) ?_
    exact .nil
  exact ⟨hall, claim2_total_when_keys_present hall⟩

/-- C3: the per-column 3-state toggle cycle, in both modes. With
`multiSort = true`: an absent column is appended as `asc` at the end, an
`asc` entry flips to `desc` in place, a `desc` entry is removed preserving
the order of the remaining keys. With `multiSort = false`: the whole
sequence is replaced by `[{id, asc}]`, `[{id, desc}]` or `[]` respectively. -/
theorem claim3_toggle_cycle (id : String) (keys l1 l2 : List SortKey) :
    ((∀ k ∈ keys, k.id ≠ id) →
      toggleId id true keys = keys ++ [⟨id, .asc⟩]) ∧
    ((∀ k ∈ l1, k.id ≠ id) → keys = l1 ++ ⟨id, .asc⟩ :: l2 →
      toggleId id true keys = l1 ++ ⟨id, .desc⟩ :: l2) ∧
    ((∀ k ∈ l1, k.id ≠ id) → keys = l1 ++ ⟨id, .desc⟩ :: l2 →
      toggleId id true keys = l1 ++ l2) ∧
    ((∀ k ∈ keys, k.id ≠ id) → toggleId id false keys = [⟨id, .asc⟩]) ∧
    ((∀ k ∈ l1, k.id ≠ id) → keys = l1 ++ ⟨id, .asc⟩ :: l2 →
      toggleId id false keys = [⟨id, .desc⟩]) ∧
    ((∀ k ∈ l1, k.id ≠ id) → keys = l1 ++ ⟨id, .desc⟩ :: l2 →
      toggleId id false keys = []) := by
  refine ⟨?_, ?_, ?_, ?_, ?_, ?_⟩
  · exact toggleId_absent_multi
  · intro h he
    subst he
    exact toggleId_asc_multi h
  · intro h he
    subst he
    exact toggleId_desc_multi h
  · exact toggleId_absent_single
  · intro h he
    subst he
    exact toggleId_asc_single h
  · intro h he
    subst he
    exact toggleId_desc_single h

theorem claim3_toggle_cycle_witness :
    toggleId "age" true [] = [⟨"age", .asc⟩] ∧
    toggleId "age" true [⟨"age", .asc⟩] = [⟨"age", .desc⟩] ∧
    toggleId "age" true [⟨"age", .desc⟩] = [] ∧
    toggleId "name" false [⟨"age", .asc⟩] = [⟨"name", .asc⟩] := by
  refine ⟨?_, ?_, ?_, ?_⟩
  · exact (claim3_toggle_cycle "age" [] [] []).1
      (fun k hk => absurd hk (List.not_mem_nil k))
  · exact (claim3_toggle_cycle "age" [⟨"age", .asc⟩] [] []).2.1
      (fun k hk => absurd hk (List.not_mem_nil k)) rfl
  · exact (claim3_toggle_cycle "age" [⟨"age", .desc⟩] [] []).2.2.1
      (fun k hk => absurd hk (List.not_mem_nil k)) rfl
  · exact (claim3_toggle_cycle "name" [⟨"age", .asc⟩] [] []).2.2.2.1
      (by decide)

/-- C7: key uniqueness is an invariant of the key-sequence state machine —
starting from any sequence with pairwise-distinct `columnId`s, any finite
run of toggle/clear interactions leaves the ids pairwise distinct. -/
theorem claim7_key_uniqueness (init : List SortKey) (ops : List KeyOp)
    (h : KeysUnique init) : KeysUnique (applyKeyOps init ops) :=
  applyKeyOps_unique h

theorem claim7_key_uniqueness_witness :
    KeysUnique ([] : List SortKey) ∧
    KeysUnique (applyKeyOps []
      [.toggle "a" true, .toggle "b" true, .clear "a"]) :=
  ⟨List.Pairwise.nil,
    claim7_key_uniqueness [] [.toggle "a" true, .toggle "b" true, .clear "a"]
      List.Pairwise.nil⟩

/-- C8: invert equivalence. For every forest, sorting by the single key
`{c, asc}` with `columnOptions[c].invert = true` produces exactly the output
of sorting by `{c, desc}` with `invert = false` (all other column options
unchanged). -/
theorem claim8_invert_equivalence (columnOptions : ColumnOptions)
    (c : String) (rows : List BodyRow) :
    getSortedRows [⟨c, .asc⟩] (setInvert c true columnOptions) rows =
      getSortedRows [⟨c, .desc⟩] (setInvert c false columnOptions) rows :=
  getSortedRows_invert columnOptions c rows

/-- C10: for a column whose options set `disable = true`, and for a header
cell that is not a data cell, the `toggle` and `clear` props produced by the
plugin's `thead.tr.th` hook leave the key sequence unchanged — the plugin
itself suppresses the mutation. -/
theorem claim10_hook_suppression (columnOptions : ColumnOptions)
    (disableMultiSort isMultiSortEventResult : Bool) (cell : HeaderCellInfo)
    (keys : List SortKey) (c : String) (o : SortByColumnOptions) :
    ((c, o) ∈ columnOptions → o.disable = some true → cell.id = c →
      headerToggleUpdate columnOptions disableMultiSort isMultiSortEventResult
        cell keys = keys ∧
      headerClearUpdate columnOptions cell keys = keys) ∧
    (cell.isData = false →
      headerToggleUpdate columnOptions disableMultiSort isMultiSortEventResult
        cell keys = keys ∧
      headerClearUpdate columnOptions cell keys = keys) := by
  constructor
  · intro hmem hdis hid
    have hc : cell.id ∈ disabledSortIds columnOptions :=
      hid ▸ mem_disabledSortIds hmem hdis
    have hcontains : (disabledSortIds columnOptions).contains cell.id = true := by
      simpa using hc
    constructor
    · unfold headerToggleUpdate
      cases hdata : cell.isData with
      | false => simp
      | true =>
        simp
        intro hn
        exact absurd hc hn
    · unfold headerClearUpdate
      cases hdata : cell.isData with
      | false => simp
      | true =>
        simp
        intro hn
        exact absurd hc hn
  · intro hnd
    unfold headerToggleUpdate headerClearUpdate
    rw [hnd]
    exact ⟨rfl, rfl⟩

/-- Column options used by the C10 witness. -/
def c10opts : ColumnOptions := [("age", { disable := some true })]

theorem claim10_hook_suppression_witness :
    (("age", ({ disable := some true } : SortByColumnOptions)) ∈ c10opts ∧
      ({ disable := some true } : SortByColumnOptions).disable = some true ∧
      headerToggleUpdate c10opts false true ⟨"age", true⟩ [⟨"x", .asc⟩] =
        [⟨"x", .asc⟩]) ∧
    ((⟨"name", false⟩ : HeaderCellInfo).isData = false ∧
      headerClearUpdate c10opts ⟨"name", false⟩ [⟨"x", .asc⟩] =
        [⟨"x", .asc⟩]) := by
  refine ⟨⟨List.mem_singleton_self _, rfl, ?_⟩, rfl, ?_⟩
  · exact ((claim10_hook_suppression c10opts false true ⟨"age", true⟩
      [⟨"x", .asc⟩] "age" { disable := some true }).1
      (List.mem_singleton_self _) rfl rfl).1
  · exact ((claim10_hook_suppression c10opts false true ⟨"name", false⟩
      [⟨"x", .asc⟩] "age" {}).2 rfl).2

/-- C4: stability. With an empty key sequence the output is the input at
every level; and whenever the comparator ties two rows (in particular when
all active keys yield a tie), their relative order at their level is
preserved: the resorted images of `x` and `y` appear in the output in the
same relative order (`getSortedRows` applies to every level's sub-forest, so
this holds at every tree level). -/
theorem claim4_stability (sortKeys : List SortKey)
    (columnOptions : ColumnOptions) (rows out : List BodyRow)
    (h : getSortedRows sortKeys columnOptions rows = .ok out) :
    (sortKeys = [] → out = rows) ∧
    (∀ x y, [x, y].Sublist rows →
      rowComparator columnOptions sortKeys x y = .ok 0 →
      ∃ gx gy, resortRow sortKeys columnOptions x = .ok gx ∧
        resortRow sortKeys columnOptions y = .ok gy ∧
        [gx, gy].Sublist out) := by
  constructor
  · intro hk
    subst hk
    rw [getSortedRows_nil_keys rows] at h
    injection h with h
    exact h.symm
  · intro x y hxy h0
    rw [getSortedRows_ok_iff] at h
    obtain ⟨s, hs, hf⟩ := h
    have hstable := sortE_stable hs hxy h0
    obtain ⟨m', hm', hsub⟩ := forall₂_sublist hf hstable
    cases hm' with
    | cons h1 htail =>
      cases htail with
      | cons h2 hnil =>
        cases hnil
        exact ⟨_, _, h1, h2, hsub⟩

/-- Rows for the C4 witness: tied on the sorted column `v`, distinguishable
through a second column. -/
def c4RowA : BodyRow := .mk [.data "v" (.num 1), .data "t" (.str "a")] none

def c4RowB : BodyRow := .mk [.data "v" (.num 1), .data "t" (.str "b")] none

theorem claim4_stability_witness :
    getSortedRows [⟨"v", .asc⟩] [] [c4RowA, c4RowB] = .ok [c4RowA, c4RowB] ∧
    ∃ gx gy, resortRow [⟨"v", .asc⟩] [] c4RowA = .ok gx ∧
      resortRow [⟨"v", .asc⟩] [] c4RowB = .ok gy ∧
      [gx, gy].Sublist [c4RowA, c4RowB] := by
  have h : getSortedRows [⟨"v", .asc⟩] [] [c4RowA, c4RowB] =
      .ok [c4RowA, c4RowB] := by
    rw [getSortedRows_ok_iff]
    exact ⟨[c4RowA, c4RowB], rfl, .cons rfl (.cons rfl .nil)⟩
  exact ⟨h, (claim4_stability _ _ _ _ h).2 c4RowA c4RowB
    (List.Sublist.refl _) rfl⟩

/-- C5: structure of the output. The output has the input's length and is
the element-wise resorting of a permutation of the input level: each output
row keeps its source row's content, with `subRows` (when present) replaced
by the recursively sorted sub-rows (same keys and options), and rows without
`subRows` passed through unchanged. -/
theorem claim5_structure (sortKeys : List SortKey)
    (columnOptions : ColumnOptions) (rows out : List BodyRow)
    (h : getSortedRows sortKeys columnOptions rows = .ok out) :
    out.length = rows.length ∧
    ∃ s, List.Perm rows s ∧
      List.Forall₂ (fun r o =>
        (r.subRows = none → o = r) ∧
        (∀ subs, r.subRows = some subs → ∃ subs',
          getSortedRows sortKeys columnOptions subs = .ok subs' ∧
          o = BodyRow.mk r.cells (some subs'))) s out := by
  rw [getSortedRows_ok_iff] at h
  obtain ⟨s, hs, hf⟩ := h
  have hperm : List.Perm rows s := (sortE_perm hs).symm
  have hf' := hf.imp (S := fun r o =>
      (r.subRows = none → o = r) ∧
      (∀ subs, r.subRows = some subs → ∃ subs',
        getSortedRows sortKeys columnOptions subs = .ok subs' ∧
        o = BodyRow.mk r.cells (some subs'))) ?_
  · refine ⟨?_, s, hperm, hf'⟩
    rw [← hf.length_eq]
    exact hperm.length_eq.symm
  · intro r o hro
    unfold resortRow at hro
    cases hsub : r.subRows with
    | none =>
      rw [hsub] at hro
      cases hro
      refine ⟨fun _ => rfl, ?_⟩
      intro subs hcon
      cases hcon
    | some subs =>
      rw [hsub] at hro
      rw [except_map_ok] at hro
      obtain ⟨subs', h1, rfl⟩ := hro
      refine ⟨?_, ?_⟩
      · intro hcon
        cases hcon
      · intro subs0 hsome
        cases hsome
        exact ⟨subs', h1, rfl⟩

/-- A leaf sub-row for the C5 witness. -/
def c5Sub (n : Int) : BodyRow := .mk [.data "v" (.num n)] none

/-- The C5 witness parent row: its sub-rows are out of order. -/
def c5Parent : BodyRow :=
  .mk [.data "v" (.num 5)] (some [c5Sub 2, c5Sub 1])

theorem claim5_structure_witness :
    ([BodyRow.mk c5Parent.cells (some [c5Sub 1, c5Sub 2])] :
      List BodyRow).length = ([c5Parent] : List BodyRow).length ∧
    ∃ s, List.Perm [c5Parent] s ∧
      List.Forall₂ (fun r o =>
        (r.subRows = none → o = r) ∧
        (∀ subs, r.subRows = some subs → ∃ subs',
          getSortedRows [⟨"v", .asc⟩] [] subs = .ok subs' ∧
          o = BodyRow.mk r.cells (some subs')))
        s [BodyRow.mk c5Parent.cells (some [c5Sub 1, c5Sub 2])] := by
  have hinner : getSortedRows [⟨"v", .asc⟩] [] [c5Sub 2, c5Sub 1] =
      .ok [c5Sub 1, c5Sub 2] := by
    rw [getSortedRows_ok_iff]
    exact ⟨[c5Sub 1, c5Sub 2], rfl, .cons rfl (.cons rfl .nil)⟩
  have hres : resortRow [⟨"v", .asc⟩] [] c5Parent =
      .ok (BodyRow.mk c5Parent.cells (some [c5Sub 1, c5Sub 2])) := by
    unfold resortRow
    rw [show c5Parent.subRows = some [c5Sub 2, c5Sub 1] from rfl]
    simp only []
    rw [hinner]
    rfl
  have houter : getSortedRows [⟨"v", .asc⟩] [] [c5Parent] =
      .ok [BodyRow.mk c5Parent.cells (some [c5Sub 1, c5Sub 2])] := by
    rw [getSortedRows_ok_iff]
    exact ⟨[c5Parent], rfl, .cons hres .nil⟩
  exact claim5_structure _ _ _ _ houter

/-- C9: idempotence of re-sort. Whenever `getSortedRows` succeeds, applying
it again with the same keys and column options to its own output returns the
output unchanged (at every level). -/
theorem claim9_idempotent (sortKeys : List SortKey)
    (columnOptions : ColumnOptions) (rows out : List BodyRow)
    (h : getSortedRows sortKeys columnOptions rows = .ok out) :
    getSortedRows sortKeys columnOptions out = .ok out :=
  getSortedRows_idem h

/-- A flat data row for the C9 witness. -/
def c9Row (n : Int) : BodyRow := .mk [.data "v" (.num n)] none

theorem claim9_idempotent_witness :
    getSortedRows [⟨"v", .asc⟩] [] [c9Row 2, c9Row 1] =
      .ok [c9Row 1, c9Row 2] ∧
    getSortedRows [⟨"v", .asc⟩] [] [c9Row 1, c9Row 2] =
      .ok [c9Row 1, c9Row 2] := by
  have h : getSortedRows [⟨"v", .asc⟩] [] [c9Row 2, c9Row 1] =
      .ok [c9Row 1, c9Row 2] := by
    rw [getSortedRows_ok_iff]
    exact ⟨[c9Row 1, c9Row 2], rfl, .cons rfl (.cons rfl .nil)⟩
  exact ⟨h, claim9_idempotent _ _ _ _ h⟩

/-- C6: no mutation of inputs. In the heap model of the JS arrays, running
`getSortedRowsH` preserves, at every previously allocated array id, exactly
the contents the array held before the call (for every fuel, every
intermediate exception path included): the input level array, every
`subRows` array of every row, and any other pre-existing array are unchanged
by value; the heap only grows and a successful result is a freshly allocated
array, never an alias of an input. The key sequence and the column options
enter the model as immutable values, which the code only reads. -/
theorem claim6_no_mutation (sortKeys : List SortKey)
    (columnOptions : ColumnOptions) (fuel rows : Nat) (h : Heap)
    (res : Except Unit Nat) (h' : Heap)
    (heq : getSortedRowsH sortKeys columnOptions fuel rows h = (res, h')) :
    (h.arrays.length ≤ h'.arrays.length ∧
      ∀ j, j < h.arrays.length →
        h'.arrays.getD j [] = h.arrays.getD j []) ∧
    ∀ c, res = .ok c → h.arrays.length ≤ c :=
  gsrFrame_all sortKeys columnOptions fuel rows h res h' heq

/-- The C6 witness heap: a single allocated (empty) level array. -/
def c6Heap : Heap := ⟨[[]]⟩

theorem claim6_no_mutation_witness :
    getSortedRowsH [] [] 1 0 c6Heap = (.ok 1, ⟨[[], []]⟩) ∧
    ((c6Heap.arrays.length ≤ (⟨[[], []]⟩ : Heap).arrays.length ∧
      ∀ j, j < c6Heap.arrays.length →
        (⟨[[], []]⟩ : Heap).arrays.getD j [] = c6Heap.arrays.getD j []) ∧
    ∀ c, (.ok 1 : Except Unit Nat) = .ok c → c6Heap.arrays.length ≤ c) := by
  have hrun : getSortedRowsH [] [] 1 0 c6Heap = (.ok 1, ⟨[[], []]⟩) := rfl
  exact ⟨hrun, claim6_no_mutation [] [] 1 0 c6Heap _ _ hrun⟩

end AddSortBy
